import Mathlib

/-!
Verification of the shockpkg archive-files entry/archive abstraction.

This development shallowly embeds the data model and the operations of the
archive-files package (src/archive.ts, src/util.ts, src/create.ts and the
per-format adapters) as executable Lean definitions, and proves or refutes
the frozen specification claims about them.  Mutable JS state is modelled
as explicit state passing; `throw` is modelled with `Except`/`Option`;
asynchronous code is single logical thread, so it is modelled as ordinary
sequential code.
-/

namespace ArchiveFiles

/-- `PathType` enum from src/types.ts. -/
inductive PathType where
  | directory
  | file
  | symlink
  | resourceFork
deriving DecidableEq, Repr

/-! ## Entry lifecycle state machine (src/archive.ts: Entry)

`Entry` has three mutable booleans: `_triggering` (set during the
synchronous extent of `trigger`'s callback), `_triggered` (set forever once
`trigger` has run), `_extracted` (set by `_beginExtract`, the common
prologue of `stream()`, `read()`, `readBuffer()` and `extract()`).
-/

/-- Mutable lifecycle flags of an `Entry` (src/archive.ts lines 258-274). -/
structure EntryState where
  triggering : Bool
  triggered : Bool
  extracted : Bool
deriving DecidableEq, Repr

/-- A fresh entry: all lifecycle flags false. -/
def entryInit : EntryState := ⟨false, false, false⟩

/-- Events observable on one `Entry` instance.

`triggerStart` is `trigger` entering its callback (setting `_triggered`
and `_triggering`); `triggerEnd` is the `finally` clause clearing
`_triggering` when the callback returns or throws; `consume` is any of the
consumption operations (`stream`, `read`, `readBuffer`, `extract`), all of
which run `_beginExtract` first.  Arbitrary event sequences cover a
callback that stashes the entry and consumes it later. -/
inductive EntryEvent where
  | triggerStart
  | triggerEnd
  | consume
deriving DecidableEq, Repr

/-- One step of the entry lifecycle.  Returns the new state and whether the
event succeeded (`false` = the corresponding JS code threw).

* `triggerStart`: `trigger` throws `'Archive entry already triggered'` if
  `_triggered` is set, else sets `_triggered` and `_triggering`
  (src/archive.ts lines 389-405).
* `triggerEnd`: the `finally` clause, always clears `_triggering`.
* `consume`: `_beginExtract` throws `'Archive entry is not active'` unless
  `_triggering`, throws `'Archive entry can only be extracted once'` if
  `_extracted`, else sets `_extracted` (src/archive.ts lines 466-474). -/
def entryStep (s : EntryState) : EntryEvent → EntryState × Bool
  | .triggerStart =>
    if s.triggered then (s, false)
    else ({s with triggered := true, triggering := true}, true)
  | .triggerEnd => ({s with triggering := false}, true)
  | .consume =>
    if !s.triggering then (s, false)
    else if s.extracted then (s, false)
    else ({s with extracted := true}, true)

/-- Run a sequence of entry events from a state. -/
def entryRun (s : EntryState) : List EntryEvent → EntryState
  | [] => s
  | e :: r => entryRun (entryStep s e).1 r

/-- Whether the next event would succeed in the given state. -/
def entrySucc (s : EntryState) (e : EntryEvent) : Bool := (entryStep s e).2

/-- Count of consumption operations that succeed along an event sequence. -/
def consumeSuccesses (s : EntryState) : List EntryEvent → Nat
  | [] => 0
  | e :: r =>
    (if e = .consume ∧ entrySucc s e then 1 else 0) +
      consumeSuccesses (entryStep s e).1 r

/-- The window automaton of the (single possible) trigger callback:
before the first `triggerStart`, inside it, or after its `triggerEnd`. -/
inductive WinState where
  | notStarted
  | opened
  | closed
deriving DecidableEq, Repr

/-- Step of the trigger-window automaton. -/
def winStep (w : WinState) (e : EntryEvent) : WinState :=
  match w, e with
  | .notStarted, .triggerStart => .opened
  | .notStarted, _ => .notStarted
  | .opened, .triggerEnd => .closed
  | .opened, _ => .opened
  | .closed, _ => .closed

/-- Run of the trigger-window automaton from the initial state. -/
def winRun (evs : List EntryEvent) : WinState :=
  evs.foldl winStep .notStarted

/-- Correspondence between entry lifecycle flags and the window automaton. -/
def entryWinCorr (s : EntryState) (w : WinState) : Prop :=
  s.triggering = decide (w = .opened) ∧ s.triggered = decide (w ≠ .notStarted)

theorem entryWinCorr_init : entryWinCorr entryInit .notStarted := by
  simp [entryWinCorr, entryInit]

theorem entryWinCorr_step (s : EntryState) (w : WinState) (e : EntryEvent)
    (h : entryWinCorr s w) : entryWinCorr (entryStep s e).1 (winStep w e) := by
  obtain ⟨h1, h2⟩ := h
  cases e <;> cases w
  all_goals simp_all [entryWinCorr, entryStep, winStep]
  all_goals (split <;> simp_all)

theorem entryWinCorr_run (evs : List EntryEvent) :
    ∀ s w, entryWinCorr s w → entryWinCorr (entryRun s evs) (evs.foldl winStep w) := by
  induction evs with
  | nil => intro s w h; exact h
  | cons e r ih =>
    intro s w h
    exact ih _ _ (entryWinCorr_step s w e h)

/-- Once `_extracted` is set it stays set. -/
theorem entryStep_extracted_mono (s : EntryState) (e : EntryEvent)
    (h : s.extracted = true) : (entryStep s e).1.extracted = true := by
  cases e <;> simp_all [entryStep]
  split <;> simp_all

/-- After `_extracted` is set, no further consumption succeeds. -/
theorem consumeSuccesses_extracted (evs : List EntryEvent) :
    ∀ s : EntryState, s.extracted = true → consumeSuccesses s evs = 0 := by
  induction evs with
  | nil => intro s _; rfl
  | cons e r ih =>
    intro s hs
    have hmono := entryStep_extracted_mono s e hs
    have hfail : ¬(e = .consume ∧ entrySucc s e) := by
      rintro ⟨rfl, hsucc⟩
      simp [entrySucc, entryStep, hs] at hsucc
    simp [consumeSuccesses, hfail, ih _ hmono]

/-- At most one consumption ever succeeds, from any state. -/
theorem consumeSuccesses_le_one (evs : List EntryEvent) :
    ∀ s : EntryState, consumeSuccesses s evs ≤ 1 := by
  induction evs with
  | nil => intro s; simp [consumeSuccesses]
  | cons e r ih =>
    intro s
    by_cases h : e = .consume ∧ entrySucc s e
    · obtain ⟨rfl, hsucc⟩ := h
      simp only [entrySucc, entryStep] at hsucc
      by_cases ht : s.triggering = false
      · simp [ht] at hsucc
      · by_cases hx : s.extracted = true
        · simp [ht, hx] at hsucc
        · have hext : (entryStep s .consume).1.extracted = true := by
            simp [entryStep, ht, hx]
          have hz := consumeSuccesses_extracted r _ hext
          have hs2 : entrySucc s .consume = true := by
            simp [entrySucc, entryStep, ht, hx]
          simp [consumeSuccesses, hs2, hz]
    · simp only [consumeSuccesses, if_neg h, Nat.zero_add]
      exact ih _

/-- If a consumption succeeds, `_triggering` was set. -/
theorem entrySucc_consume_triggering (s : EntryState)
    (h : entrySucc s .consume = true) : s.triggering = true := by
  by_contra hs
  simp [entrySucc, entryStep, Bool.not_eq_true] at h hs
  simp [hs] at h

/-- C1: for every Entry of every archive type, at most one of the
consumption operations (`stream`, `read`/`readBuffer`, `extract`) ever
succeeds on one instance, and a consumption attempt succeeds only strictly
inside the synchronous extent of the (single) trigger callback: along any
event sequence the number of successful consumptions is at most one, and a
consumption attempted after the prefix `a` of events succeeds only when
the trigger window is open after `a` (so any attempt before `trigger` or
after the callback has returned throws).  The guards live in the
type-independent base class, so this holds for every entry type. -/
theorem entry_consume_at_most_once_within_trigger
    (evs a : List EntryEvent)
    (h : entrySucc (entryRun entryInit a) .consume = true) :
    consumeSuccesses entryInit evs ≤ 1 ∧ winRun a = .opened := by
  refine ⟨consumeSuccesses_le_one evs entryInit, ?_⟩
  have hcorr := entryWinCorr_run a entryInit .notStarted entryWinCorr_init
  have htr := entrySucc_consume_triggering _ h
  obtain ⟨h1, -⟩ := hcorr
  rw [htr] at h1
  by_contra hw
  simp [winRun] at hw
  simp [hw] at h1

/-- Witness for C1 at a concrete trace: trigger, consume inside the
callback, callback returns. -/
theorem entry_consume_at_most_once_within_trigger_witness :
    consumeSuccesses entryInit
        [.triggerStart, .consume, .triggerEnd, .consume] ≤ 1 ∧
      winRun [.triggerStart] = .opened :=
  entry_consume_at_most_once_within_trigger
    [.triggerStart, .consume, .triggerEnd, .consume] [.triggerStart]
    (by decide)

/-! ## Extension-based factory (create.ts)

`createArchiveByFileExtension` builds the table of (adapter, extension)
pairs from each adapter's `FILE_EXTENSIONS`, lowercased, sorted by
extension length descending (JS `Array.prototype.sort` is stable), and
resolves a path by first match of `pathLower.endsWith(ext)`.
-/

/-- The archive adapter classes, in the order of the `archives` list of
create.ts. -/
inductive ArchiveKind where
  | dir
  | hdi
  | tar
  | tarBz2
  | tarGz
  | zip
deriving DecidableEq, Repr

/-- `FILE_EXTENSIONS` static of each adapter (dir.ts, hdi.ts, tar.ts,
tar/bz2.ts, tar/gz.ts, zip.ts). -/
def fileExtensionsOf : ArchiveKind → Option (List String)
  | .dir => none
  | .hdi => some [".dmg", ".iso", ".cdr"]
  | .tar => some [".tar"]
  | .tarBz2 => some [".tar.bz2", ".tbz2"]
  | .tarGz => some [".tar.gz", ".tgz"]
  | .zip => some [".zip"]

/-- The `archives` list of create.ts. -/
def archivesList : List ArchiveKind :=
  [.dir, .hdi, .tar, .tarBz2, .tarGz, .zip]

/-- JS `String.prototype.toLowerCase` (character-wise lowercasing; our
extension table and test paths are ASCII). -/
def jsToLower (s : String) : String := ⟨s.data.map Char.toLower⟩

/-- JS `String.prototype.endsWith` (suffix test). -/
def jsEndsWith (s suffix : String) : Bool := suffix.data.isSuffixOf s.data

/-- Stable insertion of a pair into a list sorted by extension length
descending: walk past strictly longer extensions, so that pairs of equal
length keep their original order (JS sort stability). -/
def insertByExtLenDesc (p : ArchiveKind × String) :
    List (ArchiveKind × String) → List (ArchiveKind × String)
  | [] => [p]
  | q :: r =>
    if p.2.length < q.2.length then q :: insertByExtLenDesc p r
    else p :: q :: r

/-- Stable sort by extension length descending, as performed by
`all.sort((a, b) => b.ext.length - a.ext.length)` in create.ts. -/
def sortByExtLenDesc : List (ArchiveKind × String) → List (ArchiveKind × String)
  | [] => []
  | p :: r => insertByExtLenDesc p (sortByExtLenDesc r)

/-- The flattened (adapter, lowercased extension) pairs, before sorting. -/
def archivesExtensionsUnsorted : List (ArchiveKind × String) :=
  archivesList.foldr
    (fun k acc =>
      match fileExtensionsOf k with
      | none => acc
      | some exts => exts.map (fun e => (k, jsToLower e)) ++ acc)
    []

/-- `archivesExtensions()` of create.ts: all pairs, longest extension
first. -/
def archivesExtensions : List (ArchiveKind × String) :=
  sortByExtLenDesc archivesExtensionsUnsorted

/-- `createArchiveByFileExtension(path)` of create.ts: lowercase the path,
return the adapter of the first table pair whose extension is a suffix,
else `none` (null). -/
def createArchiveByFileExtension (path : String) : Option ArchiveKind :=
  let pathLower := jsToLower path
  (archivesExtensions.find? (fun p => jsEndsWith pathLower p.2)).map (·.1)

/-- Executable check that a pair list is ordered by extension length,
longest first. -/
def extLenSortedDesc : List (ArchiveKind × String) → Bool
  | [] => true
  | [_] => true
  | p :: q :: r => (q.2.length ≤ p.2.length) && extLenSortedDesc (q :: r)

/-- C6: the factory resolves by case-insensitive suffix match, longer
extensions tried before shorter ones: `x.tar.gz` and `x.TAR.GZ` both yield
the TAR+gzip adapter (not plain TAR), `x.unknown` and extensionless `x`
yield none, and the resolution table is ordered by extension length
descending. -/
theorem createArchiveByFileExtension_cases :
    createArchiveByFileExtension "x.tar.gz" = some .tarGz ∧
      createArchiveByFileExtension "x.TAR.GZ" = some .tarGz ∧
      createArchiveByFileExtension "x.unknown" = none ∧
      createArchiveByFileExtension "x" = none ∧
      extLenSortedDesc archivesExtensions = true := by
  decide

/-! ## Callback protocol and path utilities (src/util.ts) -/

/-- The three-way return convention of the per-entry read callback:
a normal value (continue), `false` (stop the whole read), `null`
(skip descent where available). -/
inductive CbResult where
  | cont
  | stop
  | skip
deriving DecidableEq, Repr

/-- Strip a trailing run of slashes when preceded by a non-slash
character: the `replace(/([^\/])\/+$/, '$1')` step of `pathNormalize`.
A string of only slashes is left unchanged. -/
def stripTrailingSlashes (l : List Char) : List Char :=
  match (l.reverse).dropWhile (· = '/') with
  | [] => l
  | dropped => dropped.reverse

/-- `pathNormalize` of src/util.ts: backslashes to forward slashes, then
trim trailing slashes (except an all-slash path). -/
def pathNormalize (p : String) : String :=
  ⟨stripTrailingSlashes (p.data.map (fun c => if c = '\\' then '/' else c))⟩

/-! ## TAR adapter (ArchiveTar._read) -/

/-- The `tar-stream` header fields consumed by `ArchiveTar._read`.
`linkname` is optional (`defaultNull(header.linkname)`). -/
structure TarHeader where
  typ : String
  name : String
  size : Nat
  mode : Nat
  uid : Nat
  gid : Nat
  linkname : Option String
deriving DecidableEq, Repr

/-- The fields of a delivered TAR entry relevant here. -/
structure TarEntryView where
  type : PathType
  pathRaw : String
  size : Nat
  linkname : Option String
deriving DecidableEq, Repr

/-- The per-record `each` of `ArchiveTar._read`: classify the header type
flag (`file`/`symlink`/`directory`, all else skipped: `none`), and build
the entry.  For a symlink, a missing linkname throws `errorInternal`
(`.error`), else `size` is overwritten with the byte length of the
linkname encoded as UTF-8 (`Buffer.from(linkname, 'utf8').length`). -/
def tarEntryOf (h : TarHeader) : Option (Except Unit TarEntryView) :=
  let type? : Option PathType :=
    if h.typ = "file" then some .file
    else if h.typ = "symlink" then some .symlink
    else if h.typ = "directory" then some .directory
    else none
  match type? with
  | none => none
  | some type =>
    if type = .symlink then
      match h.linkname with
      | none => some (.error ())
      | some l => some (.ok ⟨type, h.name, l.utf8ByteSize, some l⟩)
    else some (.ok ⟨type, h.name, h.size, h.linkname⟩)

/-- The TAR read loop: records in order; skipped records are drained and
not delivered; a callback `false` cancels after the current record. The
skip-signal (`null`) is not distinguished from normal continuation
(`ret === false ? true : false`). -/
def tarRead (cb : TarEntryView → CbResult) :
    List TarHeader → Except Unit (List TarEntryView)
  | [] => .ok []
  | h :: r =>
    match tarEntryOf h with
    | none => tarRead cb r
    | some (.error e) => .error e
    | some (.ok v) =>
      match cb v with
      | .stop => .ok [v]
      | _ => (tarRead cb r).map (v :: ·)

/-- Every element of a successful TAR read was produced by `tarEntryOf`. -/
theorem tarRead_mem_entryOf (cb : TarEntryView → CbResult) :
    ∀ (hs : List TarHeader) (out : List TarEntryView),
      tarRead cb hs = .ok out → ∀ v ∈ out, ∃ h ∈ hs, tarEntryOf h = some (.ok v) := by
  intro hs
  induction hs with
  | nil =>
    intro out hout v hv
    simp [tarRead] at hout
    subst hout
    simp at hv
  | cons h r ih =>
    intro out hout v hv
    simp only [tarRead] at hout
    cases hmk : tarEntryOf h with
    | none =>
      rw [hmk] at hout
      obtain ⟨h', hh', hv'⟩ := ih out hout v hv
      exact ⟨h', List.mem_cons_of_mem _ hh', hv'⟩
    | some res =>
      rw [hmk] at hout
      cases res with
      | error e => simp at hout
      | ok w =>
        cases hcb : cb w with
        | stop =>
          simp [hcb] at hout
          subst hout
          simp at hv
          subst hv
          exact ⟨h, List.mem_cons_self _ _, hmk⟩
        | cont =>
          simp [hcb, Except.map] at hout
          cases hrest : tarRead cb r with
          | error e => rw [hrest] at hout; simp at hout
          | ok out' =>
            rw [hrest] at hout
            simp at hout
            subst hout
            rcases List.mem_cons.mp hv with rfl | hv'
            · exact ⟨h, List.mem_cons_self _ _, hmk⟩
            · obtain ⟨h', hh', hvv⟩ := ih out' hrest v hv'
              exact ⟨h', List.mem_cons_of_mem _ hh', hvv⟩
        | skip =>
          simp [hcb, Except.map] at hout
          cases hrest : tarRead cb r with
          | error e => rw [hrest] at hout; simp at hout
          | ok out' =>
            rw [hrest] at hout
            simp at hout
            subst hout
            rcases List.mem_cons.mp hv with rfl | hv'
            · exact ⟨h, List.mem_cons_self _ _, hmk⟩
            · obtain ⟨h', hh', hvv⟩ := ih out' hrest v hv'
              exact ⟨h', List.mem_cons_of_mem _ hh', hvv⟩

/-- C7: every delivered TAR entry of type Symlink reports `size` equal to
the UTF-8 byte length of its link-target string, never the header's
literal size field. -/
theorem tar_symlink_size_is_linkname_bytes
    (cb : TarEntryView → CbResult) (hs : List TarHeader)
    (out : List TarEntryView) (v : TarEntryView)
    (hout : tarRead cb hs = .ok out) (hv : v ∈ out)
    (htype : v.type = .symlink) :
    ∃ l, v.linkname = some l ∧ v.size = l.utf8ByteSize := by
  obtain ⟨h, -, hmk⟩ := tarRead_mem_entryOf cb hs out hout v hv
  unfold tarEntryOf at hmk
  by_cases hf : h.typ = "file"
  · simp [hf] at hmk
    obtain ⟨rfl, -⟩ := hmk
    simp at htype
  · by_cases hsym : h.typ = "symlink"
    · simp [hf, hsym] at hmk
      cases hl : h.linkname with
      | none => simp [hl] at hmk
      | some l =>
        simp [hl] at hmk
        exact ⟨l, by simp [← hmk], by simp [← hmk]⟩
    · by_cases hd : h.typ = "directory"
      · simp [hf, hsym, hd] at hmk
        obtain ⟨rfl, -⟩ := hmk
        simp at htype
      · simp [hf, hsym, hd] at hmk

/-- Witness for C7: a symlink record with literal header size 0 and
target `target` is delivered with size 6. -/
theorem tar_symlink_size_is_linkname_bytes_witness :
    ∃ l, (some "target" : Option String) = some l ∧ 6 = l.utf8ByteSize :=
  tar_symlink_size_is_linkname_bytes (fun _ => .cont)
    [⟨"symlink", "p", 0, 0, 0, 0, some "target"⟩]
    [⟨.symlink, "p", 6, some "target"⟩] ⟨.symlink, "p", 6, some "target"⟩
    rfl (by decide) rfl

/-! ## ZIP adapter (ArchiveZip) -/

/-- `bitwiseAndEqual` of src/util.ts: all mask bits set. -/
def bitwiseAndEqual (value mask : Nat) : Bool := value &&& mask = mask

/-- `modeToPathType` of src/util.ts. -/
def modeToPathType (mode : Nat) : Option PathType :=
  if bitwiseAndEqual mode 0o0120000 then some .symlink
  else if bitwiseAndEqual mode 0o0040000 then some .directory
  else if bitwiseAndEqual mode 0o0100000 then some .file
  else none

/-- `ArchiveZip.efaToUnix`: `attrs >>> 16` (JS unsigned shift on the
32-bit external file attributes). -/
def efaToUnix (attrs : Nat) : Nat := (attrs % 2 ^ 32) >>> 16

/-- `ArchiveZip.efaToUnixMode`: the upper 16 bits when their file-type
nibble is nonzero, else null. -/
def efaToUnixMode (attrs : Nat) : Option Nat :=
  let mode := efaToUnix attrs
  if (mode >>> 12) &&& 0b1111 ≠ 0 then some mode else none

/-- JS regex `/[/\\]$/.test(path)`: path ends with a slash or
backslash. -/
def endsWithPathSep (p : String) : Bool :=
  match p.data.getLast? with
  | some c => c = '/' || c = '\\'
  | none => false

/-- `ArchiveZip.efaOrPathToPathType`: POSIX mode bits when present, else
the Windows-style trailing-separator heuristic. -/
def efaOrPathToPathType (attrs : Nat) (path : String) : Option PathType :=
  match efaToUnixMode attrs with
  | none => some (if endsWithPathSep path then .directory else .file)
  | some mode => modeToPathType mode

/-- JS `String.prototype.startsWith`. -/
def jsStartsWith (s pre : String) : Bool := pre.data.isPrefixOf s.data

/-- `ArchiveZip.pathIsMacResource`: regex `/^__MACOSX(\\|\/|$)/`. -/
def pathIsMacResource (p : String) : Bool :=
  p = "__MACOSX" || jsStartsWith p "__MACOSX/" || jsStartsWith p "__MACOSX\x5c"

/-- A yauzl central-directory entry, with its uncompressed payload
(`data`) standing for what `openReadStream` would produce. -/
structure YauzlEntry where
  fileName : String
  uncompressedSize : Nat
  compressedSize : Nat
  externalFileAttributes : Nat
  data : List Nat
deriving DecidableEq, Repr

/-- The fields of a delivered ZIP entry needed here: its classified type,
raw path, `size` (the uncompressed size) and payload bytes. -/
structure ZipEntryView where
  type : PathType
  pathRaw : String
  size : Nat
  data : List Nat
deriving DecidableEq, Repr

/-- The filtering part of `ArchiveZip._read`'s `each`: entries with an
unclassifiable type are skipped (`return false` continues the loop), and
Mac resource fork paths are skipped; all others build an entry. -/
def zipEntryOf (e : YauzlEntry) : Option ZipEntryView :=
  match efaOrPathToPathType e.externalFileAttributes e.fileName with
  | none => none
  | some type =>
    if pathIsMacResource e.fileName then none
    else some ⟨type, e.fileName, e.uncompressedSize, e.data⟩

/-- The ZIP read loop: lazy entry iteration, `each` per entry; a callback
`false` cancels (closes the zipfile); `null` is treated as normal
continuation (`ret === false` is the only cancel test). -/
def zipRead (cb : ZipEntryView → CbResult) : List YauzlEntry → List ZipEntryView
  | [] => []
  | e :: r =>
    match zipEntryOf e with
    | none => zipRead cb r
    | some v =>
      match cb v with
      | .stop => [v]
      | _ => v :: zipRead cb r

/-- Every delivered ZIP entry was produced by `zipEntryOf`. -/
theorem zipRead_mem_entryOf (cb : ZipEntryView → CbResult) :
    ∀ (es : List YauzlEntry) (v : ZipEntryView),
      v ∈ zipRead cb es → ∃ e ∈ es, zipEntryOf e = some v := by
  intro es
  induction es with
  | nil => intro v hv; simp [zipRead] at hv
  | cons e r ih =>
    intro v hv
    simp only [zipRead] at hv
    cases hmk : zipEntryOf e with
    | none =>
      rw [hmk] at hv
      obtain ⟨e', he', hv'⟩ := ih v hv
      exact ⟨e', List.mem_cons_of_mem _ he', hv'⟩
    | some w =>
      simp only [hmk] at hv
      cases hcb : cb w with
      | stop =>
        simp only [hcb] at hv
        simp at hv
        subst hv
        exact ⟨e, List.mem_cons_self _ _, hmk⟩
      | cont =>
        simp only [hcb] at hv
        rcases List.mem_cons.mp hv with rfl | hv'
        · exact ⟨e, List.mem_cons_self _ _, hmk⟩
        · obtain ⟨e', he', hvv⟩ := ih v hv'
          exact ⟨e', List.mem_cons_of_mem _ he', hvv⟩
      | skip =>
        simp only [hcb] at hv
        rcases List.mem_cons.mp hv with rfl | hv'
        · exact ⟨e, List.mem_cons_self _ _, hmk⟩
        · obtain ⟨e', he', hvv⟩ := ih v hv'
          exact ⟨e', List.mem_cons_of_mem _ he', hvv⟩

/-- C8: a ZIP entry whose raw path begins with `__MACOSX/`, or is exactly
`__MACOSX`, is never delivered to the read callback, for every archive
and every callback. -/
theorem zip_macosx_never_delivered (cb : ZipEntryView → CbResult)
    (es : List YauzlEntry) (v : ZipEntryView) (hv : v ∈ zipRead cb es) :
    ¬(jsStartsWith v.pathRaw "__MACOSX/" = true ∨ v.pathRaw = "__MACOSX") := by
  obtain ⟨e, -, hmk⟩ := zipRead_mem_entryOf cb es v hv
  unfold zipEntryOf at hmk
  cases htype : efaOrPathToPathType e.externalFileAttributes e.fileName with
  | none => rw [htype] at hmk; simp at hmk
  | some t =>
    rw [htype] at hmk
    by_cases hmac : pathIsMacResource e.fileName = true
    · simp [hmac] at hmk
    · simp [hmac] at hmk
      subst hmk
      rintro (hpre | hexact)
      · exact hmac (by simp_all [pathIsMacResource])
      · exact hmac (by simp_all [pathIsMacResource])

/-- Witness for C8: with an ordinary entry `a.txt` delivered, its path
neither starts with `__MACOSX/` nor equals `__MACOSX`. -/
theorem zip_macosx_never_delivered_witness :
    ¬(jsStartsWith (ZipEntryView.pathRaw ⟨.file, "a.txt", 1, [7]⟩)
          "__MACOSX/" = true ∨
        ZipEntryView.pathRaw ⟨.file, "a.txt", 1, [7]⟩ = "__MACOSX") :=
  zip_macosx_never_delivered (fun _ => .cont)
    [⟨"a.txt", 1, 1, 0, [7]⟩] ⟨.file, "a.txt", 1, [7]⟩ (by decide)

/-! ## Extraction to the filesystem (Entry._extract* of src/archive.ts)

The destination path's current occupant is an `Option FsObj` (`fsLstatExists`
result); extraction returns the object left at the destination together
with the trace of filesystem/archive effects performed, or the thrown
error.
-/

/-- What `fsLstatExists` can find at the destination path. -/
inductive FsObj where
  | file (content : List Nat)
  | dir
  | symlink
  | other
deriving DecidableEq, Repr

/-- `stat.isDirectory()`. -/
def FsObj.isDirectory : FsObj → Bool
  | .dir => true
  | _ => false

/-- Errors thrown by extraction. -/
inductive ExtractErr where
  | pathExists
  | noResourceFork
  | internalErr
deriving DecidableEq, Repr

/-- Effects performed on the filesystem and the owning archive. -/
inductive FsAction where
  | remove
  | ensureDir
  | writeFile (content : List Nat)
  | setAttributes
  | register
  | unregister
deriving DecidableEq, Repr

/-- `Entry._extractStreamToFile`: conflict-check (remove when `replace`,
else throw `PathExists`), write a zero-length placeholder, stream the
reader output into it when a stream is returned, then apply attributes
immediately.  `streamData` is what the reader thunk produces (`none` =
null stream). -/
def extractStreamToFile (existing : Option FsObj) (replace : Bool)
    (streamData : Option (List Nat)) : Except ExtractErr (FsObj × List FsAction) :=
  match existing with
  | some _ =>
    if replace then
      .ok (.file (streamData.getD []),
        [.remove, .writeFile []] ++
          (match streamData with
           | some s => [.writeFile s]
           | none => []) ++ [.setAttributes])
    else .error .pathExists
  | none =>
    .ok (.file (streamData.getD []),
      [.writeFile []] ++
        (match streamData with
         | some s => [.writeFile s]
         | none => []) ++ [.setAttributes])

/-- `Entry._extractDirectory`: reuse an existing directory; for an
existing non-directory remove-and-recreate when `replace`, else throw
`PathExists`; create when absent.  Attributes are not applied: a deferred
record is registered with the owning archive
(`archive.afterReadSetAttributes`). -/
def extractDirectory (existing : Option FsObj) (replace : Bool) :
    Except ExtractErr (FsObj × List FsAction) :=
  match existing with
  | some o =>
    if !o.isDirectory then
      if replace then .ok (.dir, [.remove, .ensureDir, .register])
      else .error .pathExists
    else .ok (o, [.register])
  | none => .ok (.dir, [.ensureDir, .register])

/-! ## Deferred-attribute flush order (Archive._afterReadSetAttributesTrigger)

The map keys (resolved paths) are collected in insertion order and sorted
with `resolves.sort((a, b) => b.length - a.length)`: a stable sort by
string length, longest first, here as a stable insertion sort.
-/

/-- Stable insertion into a length-descending list: walk past strictly
longer keys, so equal lengths keep their original order. -/
def insertByLenDesc (x : String) : List String → List String
  | [] => [x]
  | y :: r =>
    if x.length < y.length then y :: insertByLenDesc x r
    else x :: y :: r

/-- Stable sort of the resolved keys by length descending. -/
def sortByLenDesc : List String → List String
  | [] => []
  | x :: r => insertByLenDesc x (sortByLenDesc r)

theorem mem_insertByLenDesc (x z : String) :
    ∀ l, z ∈ insertByLenDesc x l ↔ z = x ∨ z ∈ l := by
  intro l
  induction l with
  | nil => simp [insertByLenDesc]
  | cons y r ih =>
    by_cases h : x.length < y.length
    · simp only [insertByLenDesc, if_pos h, List.mem_cons, ih]
      tauto
    · simp only [insertByLenDesc, if_neg h, List.mem_cons]

theorem pairwise_insertByLenDesc (x : String) :
    ∀ l, l.Pairwise (fun a b => b.length ≤ a.length) →
      (insertByLenDesc x l).Pairwise (fun a b => b.length ≤ a.length) := by
  intro l
  induction l with
  | nil => intro _; simp [insertByLenDesc]
  | cons y r ih =>
    intro h
    rw [List.pairwise_cons] at h
    obtain ⟨hy, hr⟩ := h
    by_cases hlt : x.length < y.length
    · rw [insertByLenDesc, if_pos hlt, List.pairwise_cons]
      refine ⟨?_, ih hr⟩
      intro z hz
      rcases (mem_insertByLenDesc x z r).mp hz with rfl | hzr
      · omega
      · exact hy z hzr
    · rw [insertByLenDesc, if_neg hlt, List.pairwise_cons]
      refine ⟨?_, ?_⟩
      · intro z hz
        rcases List.mem_cons.mp hz with rfl | hzr
        · omega
        · have := hy z hzr
          omega
      · rw [List.pairwise_cons]
        exact ⟨hy, hr⟩

theorem pairwise_sortByLenDesc (l : List String) :
    (sortByLenDesc l).Pairwise (fun a b => b.length ≤ a.length) := by
  induction l with
  | nil => simp [sortByLenDesc]
  | cons x r ih => exact pairwise_insertByLenDesc x _ ih

theorem mem_sortByLenDesc (z : String) :
    ∀ l, z ∈ sortByLenDesc l ↔ z ∈ l := by
  intro l
  induction l with
  | nil => simp [sortByLenDesc]
  | cons x r ih =>
    simp only [sortByLenDesc, mem_insertByLenDesc, ih, List.mem_cons]

/-- In a length-descending pairwise list, a strictly longer string sits at
a strictly smaller index. -/
theorem indexOf_lt_of_longer (l : List String) (x y : String)
    (hp : l.Pairwise (fun a b => b.length ≤ a.length))
    (hx : x ∈ l) (hy : y ∈ l) (hlen : y.length < x.length) :
    l.indexOf x < l.indexOf y := by
  have hxl : l.indexOf x < l.length := List.indexOf_lt_length.mpr hx
  have hyl : l.indexOf y < l.length := List.indexOf_lt_length.mpr hy
  have hgx : l[l.indexOf x] = x := List.getElem_indexOf hxl
  have hgy : l[l.indexOf y] = y := List.getElem_indexOf hyl
  rcases lt_trichotomy (l.indexOf x) (l.indexOf y) with h | h | h
  · exact h
  · exfalso
    have hxy : x = y := by
      rw [← hgx, ← hgy]
      simp [h]
    rw [hxy] at hlen
    exact lt_irrefl _ hlen
  · exfalso
    have hpg := (List.pairwise_iff_get.mp hp)
      ⟨l.indexOf y, hyl⟩ ⟨l.indexOf x, hxl⟩ (Fin.mk_lt_mk.mpr h)
    rw [List.get_eq_getElem, List.get_eq_getElem] at hpg
    simp only [hgx, hgy] at hpg
    omega

/-- C2: extracting a Directory entry never applies its attributes
immediately: the effect trace has no `setAttributes` and registers a
deferred-attribute record with the owning Archive; and the flush applies
registered records sorted by resolved-path length, longest first, so a
registered strict descendant's attributes are applied before its
ancestor's. -/
theorem dir_extract_defers_and_flush_descendant_first
    (existing : Option FsObj) (replace : Bool) (res : FsObj × List FsAction)
    (ks : List String) (a d r : String)
    (hres : extractDirectory existing replace = .ok res)
    (hd : d = a ++ "/" ++ r) (ha : a ∈ ks) (hdk : d ∈ ks) :
    (FsAction.setAttributes ∉ res.2 ∧ FsAction.register ∈ res.2) ∧
      (sortByLenDesc ks).indexOf d < (sortByLenDesc ks).indexOf a := by
  constructor
  · rcases existing with _ | o
    · simp [extractDirectory] at hres
      rw [← hres]
      decide
    · by_cases hdir : o.isDirectory
      · simp [extractDirectory, hdir] at hres
        rw [← hres]
        simp
      · by_cases hrep : replace
        · simp [extractDirectory, hdir, hrep] at hres
          rw [← hres]
          decide
        · simp [extractDirectory, hdir, hrep] at hres
  · have h1 : ("/" : String).length = 1 := rfl
    have hlen : a.length < d.length := by
      subst hd
      simp [String.length_append]
      omega
    exact indexOf_lt_of_longer _ d a (pairwise_sortByLenDesc ks)
      ((mem_sortByLenDesc d ks).mpr hdk) ((mem_sortByLenDesc a ks).mpr ha) hlen

/-- Witness for C2 at a concrete input: a fresh destination, with keys
`/x` and its descendant `/x/y` registered. -/
theorem dir_extract_defers_and_flush_descendant_first_witness :
    (FsAction.setAttributes ∉
        ((FsObj.dir, [FsAction.ensureDir, FsAction.register]) :
          FsObj × List FsAction).2 ∧
      FsAction.register ∈
        ((FsObj.dir, [FsAction.ensureDir, FsAction.register]) :
          FsObj × List FsAction).2) ∧
      (sortByLenDesc ["/x", "/x/y"]).indexOf "/x/y" <
        (sortByLenDesc ["/x", "/x/y"]).indexOf "/x" :=
  dir_extract_defers_and_flush_descendant_first none false
    (FsObj.dir, [FsAction.ensureDir, FsAction.register])
    ["/x", "/x/y"] "/x" "/x/y" "y" rfl rfl (by decide) (by decide)

/-- C9: extracting a Directory entry onto an existing non-directory
throws `PathExists` without `replace`; with `replace` it removes the
object and leaves a real directory; an existing directory is always
reused — no remove, no recreate — whether or not `replace` is set. -/
theorem dir_extract_replace_semantics (o : FsObj) (replace : Bool)
    (hnd : o.isDirectory = false) :
    extractDirectory (some o) false = .error .pathExists ∧
      extractDirectory (some o) true =
        .ok (.dir, [.remove, .ensureDir, .register]) ∧
      extractDirectory (some .dir) replace = .ok (.dir, [.register]) := by
  refine ⟨?_, ?_, ?_⟩
  · simp [extractDirectory, hnd]
  · simp [extractDirectory, hnd]
  · simp [extractDirectory, FsObj.isDirectory]

/-- Witness for C9 at a concrete input: a plain file occupies the
destination. -/
theorem dir_extract_replace_semantics_witness :
    extractDirectory (some (.file [0])) false = .error .pathExists ∧
      extractDirectory (some (.file [0])) true =
        .ok (.dir, [.remove, .ensureDir, .register]) ∧
      extractDirectory (some .dir) true = .ok (.dir, [.register]) :=
  dir_extract_replace_semantics (.file [0]) true rfl

/-! ## ZIP entry consumption (C10) -/

/-- `Entry._stream` dispatch for a delivered ZIP entry: files call the
`readData` thunk (`yauzlEntryRead`: null when `uncompressedSize` is 0,
else the opened read stream); directories have a null stream; symlinks
wrap `yauzlEntryReadSymlink` (empty buffer when the read is null);
resource forks have no thunk in ZIP, so `errorInternal`. -/
def zipEntryStreamOp (v : ZipEntryView) : Except ExtractErr (Option (List Nat)) :=
  match v.type with
  | .file => .ok (if v.size = 0 then none else some v.data)
  | .directory => .ok none
  | .symlink => .ok (some (if v.size = 0 then [] else v.data))
  | .resourceFork => .error .internalErr

/-- `streamToBuffer` of src/util.ts on the model: the bytes the stream
produces, concatenated. -/
def streamToBuffer (s : List Nat) : List Nat := s

/-- `Entry.readBuffer`: drain the stream into one buffer, or null when
there is no stream. -/
def zipEntryReadBuffer (v : ZipEntryView) : Except ExtractErr (Option (List Nat)) :=
  (zipEntryStreamOp v).map (Option.map streamToBuffer)

/-- `Entry._extractFile` for a ZIP file entry: `_extractStreamToFile`
with the `readData` thunk output. -/
def zipExtractFile (v : ZipEntryView) (existing : Option FsObj)
    (replace : Bool) : Except ExtractErr (FsObj × List FsAction) :=
  extractStreamToFile existing replace (if v.size = 0 then none else some v.data)

/-- C10: a ZIP File entry of uncompressed size zero yields null (not an
empty stream) from `stream()` and from `readBuffer()`, while its type is
File and not Directory; extracting it still produces a zero-length file
at a fresh destination. -/
theorem zip_zero_size_file_null_stream (v : ZipEntryView)
    (hf : v.type = .file) (h0 : v.size = 0) :
    zipEntryStreamOp v = .ok none ∧
      zipEntryReadBuffer v = .ok none ∧
      v.type ≠ PathType.directory ∧
      zipExtractFile v none false =
        .ok (.file [], [.writeFile [], .setAttributes]) := by
  refine ⟨?_, ?_, ?_, ?_⟩
  · simp [zipEntryStreamOp, hf, h0]
  · simp [zipEntryReadBuffer, zipEntryStreamOp, hf, h0, Except.map]
  · rw [hf]
    decide
  · simp [zipExtractFile, extractStreamToFile, h0]

/-- Witness for C10 at a concrete zero-size file entry. -/
theorem zip_zero_size_file_null_stream_witness :
    zipEntryStreamOp ⟨.file, "empty.txt", 0, []⟩ = .ok none ∧
      zipEntryReadBuffer ⟨.file, "empty.txt", 0, []⟩ = .ok none ∧
      ZipEntryView.type ⟨.file, "empty.txt", 0, []⟩ ≠ PathType.directory ∧
      zipExtractFile ⟨.file, "empty.txt", 0, []⟩ none false =
        .ok (.file [], [.writeFile [], .setAttributes]) :=
  zip_zero_size_file_null_stream ⟨.file, "empty.txt", 0, []⟩ rfl rfl

/-! ## Archive read lifecycle (Archive.read, src/archive.ts lines 867-925)

`Archive` has a `_reading` flag and a `_afterReadSetAttributes` map that
is non-null exactly while a read is active.  The map (JS `Map`, insertion
order) is keyed by `pathResolve(path)`; resolution is an opaque parameter
here. -/

/-- Mutable state of an `Archive` instance: the `_reading` flag and the
deferred-attributes map (`none` = null, i.e. no active read), as an
insertion-ordered association list keyed by resolved path, holding the
registered relative path. -/
structure ArchiveState where
  reading : Bool
  afters : Option (List (String × String))
deriving DecidableEq, Repr

/-- A fresh archive: not reading, no map. -/
def archiveInit : ArchiveState := ⟨false, none⟩

/-- Errors of the archive read lifecycle. -/
inductive ArchiveErr where
  | notReading
  | reentrant
  | bodyFailure
deriving DecidableEq, Repr

/-- JS `Map.prototype.set`: overwrite in place keeping insertion order,
else append. -/
def mapSet (m : List (String × String)) (k v : String) : List (String × String) :=
  if m.any (fun p => p.1 = k) then
    m.map (fun p => if p.1 = k then (k, v) else p)
  else m ++ [(k, v)]

/-- JS `Map.prototype.delete`. -/
def mapDelete (m : List (String × String)) (k : String) : List (String × String) :=
  m.filter (fun p => p.1 ≠ k)

/-- `Archive.afterReadSetAttributes`: throws unless the map is live, else
stores the record under the resolved path. -/
def afterReadSetAttributesOp (resolve : String → String) (s : ArchiveState)
    (path : String) : Except ArchiveErr ArchiveState :=
  match s.afters with
  | none => .error .notReading
  | some m => .ok {s with afters := some (mapSet m (resolve path) path)}

/-- `Archive.afterReadSetAttributesRemove`: throws unless the map is
live, else deletes the resolved key. -/
def afterReadSetAttributesRemoveOp (resolve : String → String)
    (s : ArchiveState) (path : String) : Except ArchiveErr ArchiveState :=
  match s.afters with
  | none => .error .notReading
  | some m => .ok {s with afters := some (mapDelete m (resolve path))}

/-- Registry traffic performed by the format-specific `_read` body. -/
inductive ReadBodyOp where
  | register (path : String)
  | removeR (path : String)
deriving DecidableEq, Repr

/-- Apply the body's registry operations to the live map. -/
def runBodyOps (resolve : String → String) (m : List (String × String)) :
    List ReadBodyOp → List (String × String)
  | [] => m
  | .register p :: r => runBodyOps resolve (mapSet m (resolve p) p) r
  | .removeR p :: r => runBodyOps resolve (mapDelete m (resolve p)) r

/-- `Archive.read`: throw `'Archive already being read'` if `_reading`;
else set the flag, reset the map, run the `_read` body (its registrations
plus whether it throws), flush the deferred records longest resolved path
first when the body succeeded, and always clear the map and the flag in
the `finally`.  Returns the final state, the error that escaped (if any)
and the resolved keys in flush order. -/
def archiveRead (resolve : String → String) (s : ArchiveState)
    (body : List ReadBodyOp) (bodyFails : Bool) :
    ArchiveState × Option ArchiveErr × List String :=
  if s.reading then (s, some .reentrant, [])
  else
    let m := runBodyOps resolve [] body
    if bodyFails then (⟨false, none⟩, some .bodyFailure, [])
    else (⟨false, none⟩, none, sortByLenDesc (m.map (fun p => p.1)))

/-- C5: `read` rejects with the reentrancy error while a read is in
progress, leaving state untouched; from a non-reading state the flag and
the deferred-attributes map are cleared afterwards whether the body
succeeds or throws, so a subsequent sequential read is never rejected as
reentrant; and the registration interface throws outside an active read
(map null: before the first read and after any read). -/
theorem archive_read_lifecycle (resolve : String → String)
    (m0 : Option (List (String × String))) (body body2 : List ReadBodyOp)
    (f1 f2 : Bool) (p : String) :
    archiveRead resolve ⟨true, m0⟩ body f1 = (⟨true, m0⟩, some .reentrant, []) ∧
      (archiveRead resolve ⟨false, m0⟩ body f1).1 = ⟨false, none⟩ ∧
      (archiveRead resolve (archiveRead resolve ⟨false, m0⟩ body f1).1
          body2 f2).2.1 ≠ some .reentrant ∧
      afterReadSetAttributesOp resolve ⟨false, none⟩ p = .error .notReading ∧
      afterReadSetAttributesRemoveOp resolve ⟨false, none⟩ p =
        .error .notReading := by
  refine ⟨?_, ?_, ?_, rfl, rfl⟩
  · simp [archiveRead]
  · by_cases h1 : f1 = true <;> simp [archiveRead, h1]
  · by_cases h1 : f1 = true <;> by_cases h2 : f2 = true <;>
      simp [archiveRead, h1, h2]

/-! ## Directory and disk-image walks (src/util.ts fsWalk, archive/dir.ts,
archive/hdi.ts)

The filesystem is a finite tree; `children` lists stand for the sorted
`readdir` listings.  Component names do not contain path separators, and
`pathJoin` of relative components is plain `/`-joining.  `fsWalk` of
src/util.ts is an explicit-stack depth-first preorder walk over exactly
these listings; it is embedded below as the equivalent structural
recursion with the same delivery order and the same control flow: the
itterator's `null` aborts the whole walk, `false` (or a non-directory)
skips recursion, else the walk descends. -/

/-- A filesystem node: a file (with or without a resource-fork sidecar at
the `..namedfork/rsrc` pseudo-path), a directory with its listing, a
symlink, or an unsupported type (socket, device, FIFO). -/
inductive FsNode where
  | file (rsrc : Bool)
  | dir (children : List (String × FsNode))
  | symlink
  | other
deriving Repr

/-- `statToPathType` of src/util.ts (symlink, then directory, then file,
else null). -/
def statToPathType : FsNode → Option PathType
  | .symlink => some .symlink
  | .dir _ => some .directory
  | .file _ => some .file
  | .other => none

/-- The walk itterator's return value: recurse (true), skip recursion
(false), abort the walk (null). -/
inductive WalkHint where
  | recurse
  | skipR
  | abort
deriving DecidableEq, Repr

/-- Join of relative path components. -/
def pathJoinRel (a b : String) : String :=
  if a = "" then b else a ++ "/" ++ b

/-- An entry delivered by the Directory or Disk-Image adapter. -/
structure DirEnt where
  type : PathType
  pathRaw : String
deriving DecidableEq, Repr

/-- `Entry.path`: the normalized raw path. -/
def DirEnt.path (e : DirEnt) : String := pathNormalize e.pathRaw

/-- The `each` closure of `ArchiveDir._read` and `ArchiveHdi._read`:
classify the node (unsupported types are skipped but the walk continues),
deliver the entry, map the callback result to a walk hint
(`false` ⇒ abort ⇒ `null`-to-walk; `null` ⇒ skip ⇒ `false`-to-walk), and
after a file with a resource-fork sidecar deliver the ResourceFork entry
under the same raw path.  Returns the delivered entries and the hint. -/
def dirEach (cb : DirEnt → CbResult) (pathRaw : String) (node : FsNode) :
    List DirEnt × WalkHint :=
  match statToPathType node with
  | none => ([], .recurse)
  | some type =>
    let ent : DirEnt := ⟨type, pathRaw⟩
    match cb ent with
    | .stop => ([ent], .abort)
    | .skip => ([ent], .skipR)
    | .cont =>
      match node with
      | .file true =>
        let entR : DirEnt := ⟨.resourceFork, pathRaw⟩
        match cb entR with
        | .stop => ([ent, entR], .abort)
        | .skip => ([ent, entR], .skipR)
        | .cont => ([ent, entR], .recurse)
      | _ => ([ent], .recurse)

/-- `fsWalk` over a listing: depth-first preorder, with the accumulated
relative path `pre`.  Returns the delivered entries and whether the walk
was aborted (`break`). -/
def fsWalkGo (itter : String → FsNode → List DirEnt × WalkHint)
    (pre : String) : List (String × FsNode) → List DirEnt × Bool
  | [] => ([], false)
  | (name, node) :: rest =>
    let rel := pathJoinRel pre name
    let (ents, hint) := itter rel node
    match hint with
    | .abort => (ents, true)
    | .skipR =>
      let (ents2, ab) := fsWalkGo itter pre rest
      (ents ++ ents2, ab)
    | .recurse =>
      match node with
      | .dir cs =>
        let (entsC, abC) := fsWalkGo itter rel cs
        if abC then (ents ++ entsC, true)
        else
          let (ents2, ab) := fsWalkGo itter pre rest
          (ents ++ entsC ++ ents2, ab)
      | _ =>
        let (ents2, ab) := fsWalkGo itter pre rest
        (ents ++ ents2, ab)

/-- Split a character list on `/`. -/
def splitSlash (l : List Char) : List (List Char) :=
  l.foldr
    (fun c acc =>
      if c = '/' then [] :: acc
      else
        match acc with
        | [] => [[c]]
        | h :: t => (c :: h) :: t)
    [[]]

/-- Look a node up by path components (`lstat` of a joined path). -/
def lookupNode : List (String × FsNode) → List String → Option FsNode
  | _, [] => none
  | children, [c] => (children.find? (fun p => p.1 = c)).map (fun p => p.2)
  | children, c :: rest =>
    match (children.find? (fun p => p.1 = c)).map (fun p => p.2) with
    | some (FsNode.dir cs) => lookupNode cs rest
    | _ => none

/-- Look a node up by a slash-separated relative path. -/
def lookupPath (root : List (String × FsNode)) (p : String) : Option FsNode :=
  lookupNode root ((splitSlash p.data).map (fun l => (⟨l⟩ : String)))

/-- The subpath loop of `ArchiveDir._read`: each subpath is stat'ed
(missing ⇒ the read throws), `each` runs on the subpath itself — with its
return value discarded, as in the source — and when the subpath is a
directory the walk descends under it; an aborted walk does not stop the
loop over the remaining subpaths. -/
def dirReadSubpaths (cb : DirEnt → CbResult)
    (root : List (String × FsNode)) : List String → Except Unit (List DirEnt)
  | [] => .ok []
  | sp :: rest =>
    match lookupPath root sp with
    | none => .error ()
    | some node =>
      let ents1 := (dirEach cb sp node).1
      let entsWalk :=
        match node with
        | .dir cs => (fsWalkGo (dirEach cb) sp cs).1
        | _ => []
      (dirReadSubpaths cb root rest).map
        (fun more => ents1 ++ entsWalk ++ more)

/-- `ArchiveDir._read`: walk the whole tree, or each configured subpath
independently. -/
def dirRead (cb : DirEnt → CbResult) (root : List (String × FsNode))
    (subpaths : Option (List String)) : Except Unit (List DirEnt) :=
  match subpaths with
  | none => .ok (fsWalkGo (dirEach cb) "" root).1
  | some sps => dirReadSubpaths cb root sps

/-- `ArchiveHdi._read`: walk every mounted volume, entry paths prefixed
with the volume name; an aborted walk does not stop the loop over the
remaining volumes. -/
def hdiRead (cb : DirEnt → CbResult) :
    List (String × List (String × FsNode)) → List DirEnt
  | [] => []
  | (volName, listing) :: rest =>
    (fsWalkGo (dirEach cb) volName listing).1 ++ hdiRead cb rest

/-- The always-cancel callback of the C3 property. -/
def stopAll : DirEnt → CbResult := fun _ => .stop

/-- C3 at the failing inputs: with the always-`false` callback, a
subpath-scoped Directory read of `subpaths: ['a', 'b']` over
`a/c, b` delivers three entries, and a two-volume disk image delivers two,
while the plain (non-subpath) Directory read of the same tree delivers
exactly one. -/
theorem stop_callback_not_single_delivery :
    (dirRead stopAll
        [("a", .dir [("c", .file false)]), ("b", .file false)]
        (some ["a", "b"])) =
      .ok [⟨.directory, "a"⟩, ⟨.file, "a/c"⟩, ⟨.file, "b"⟩] ∧
      hdiRead stopAll
          [("Vol1", [("f", .file false)]), ("Vol2", [("g", .file false)])] =
        [⟨.file, "Vol1/f"⟩, ⟨.file, "Vol2/g"⟩] ∧
      (dirRead stopAll
          [("a", .dir [("c", .file false)]), ("b", .file false)] none) =
        .ok [⟨.directory, "a"⟩] := by
  refine ⟨?_, ?_, ?_⟩ <;>
    simp [dirRead, dirReadSubpaths, hdiRead, fsWalkGo, dirEach, stopAll,
      lookupPath, lookupNode, splitSlash, pathJoinRel, statToPathType,
      Except.map]

/-- The callback of the C4 failing input: skip-descent on the directory
`a`, continue otherwise. -/
def skipOnA : DirEnt → CbResult := fun e =>
  if e.pathRaw = "a" then .skip else .cont

/-- C4 at the failing input: in a subpath-scoped Directory read of
`subpaths: ['a']`, the callback's skip-signal on the directory `a` is
discarded and the strict descendant `a/b` is still delivered, whereas the
plain (non-subpath) walk of the same tree honors the skip-signal. -/
theorem skip_callback_still_descends :
    dirRead skipOnA [("a", .dir [("b", .file false)])] (some ["a"]) =
      .ok [⟨.directory, "a"⟩, ⟨.file, "a/b"⟩] ∧
      skipOnA ⟨.directory, "a"⟩ = .skip ∧
      DirEnt.path ⟨.file, "a/b"⟩ = "a" ++ "/" ++ "b" ∧
      dirRead skipOnA [("a", .dir [("b", .file false)])] none =
        .ok [⟨.directory, "a"⟩] := by
  refine ⟨?_, rfl, rfl, ?_⟩ <;>
    simp [dirRead, dirReadSubpaths, fsWalkGo, dirEach, skipOnA,
      lookupPath, lookupNode, splitSlash, pathJoinRel, statToPathType,
      Except.map]

end ArchiveFiles
